import Mathlib

/-!
Verification development for the neocalc-core arithmetic engine.

The definitions below are a shallow embedding of the Rust sources:
  * `src/engine/types.rs`  — the `Number` tower, promotion, arithmetic,
    `pow`, `factorial`;
  * `src/engine/errors.rs` — `EngineError`;
  * `src/engine/ast.rs`    — `Context` (scope stack + function table),
    `Expr` and the iterative evaluator `Expr::eval`.

Machine floats (`f64`, `Complex64`) are modelled by an idealized IEEE
double: an exact rational payload plus the special values `inf`, `negInf`
and `nan`, with no rounding or overflow.  Every fact proved about floats
below only depends on the special-value structure (signs of division by
zero, NaN propagation in comparisons), which the idealization reproduces
exactly.  Rust panics (e.g. `BigInt % 0`, `unreachable!`) are modelled as
`none` of an `Option` result.
-/

namespace NeoCalc

/-- Idealized model of an IEEE `f64`: exact rational finite values plus the
three special values.  (Signed zero is not distinguished; each place the
engine divides by a float zero uses the literal `0.0`, which is `+0.0`.) -/
inductive F64 where
  | finite : Rat → F64
  | inf : F64
  | negInf : F64
  | nan : F64
deriving DecidableEq, Repr

/-- IEEE negation on the float model. -/
def fneg : F64 → F64
  | .finite a => .finite (-a)
  | .inf => .negInf
  | .negInf => .inf
  | .nan => .nan

/-- IEEE addition on the float model (idealized: no rounding/overflow). -/
def fadd : F64 → F64 → F64
  | .nan, _ => .nan
  | _, .nan => .nan
  | .inf, .negInf => .nan
  | .negInf, .inf => .nan
  | .inf, _ => .inf
  | _, .inf => .inf
  | .negInf, _ => .negInf
  | _, .negInf => .negInf
  | .finite a, .finite b => .finite (a + b)

/-- IEEE subtraction on the float model. -/
def fsub (a b : F64) : F64 := fadd a (fneg b)

/-- IEEE multiplication on the float model (idealized). -/
def fmul : F64 → F64 → F64
  | .nan, _ => .nan
  | _, .nan => .nan
  | .finite a, .finite b => .finite (a * b)
  | .inf, .inf => .inf
  | .inf, .negInf => .negInf
  | .negInf, .inf => .negInf
  | .negInf, .negInf => .inf
  | .inf, .finite b => if b = 0 then .nan else if 0 < b then .inf else .negInf
  | .finite a, .inf => if a = 0 then .nan else if 0 < a then .inf else .negInf
  | .negInf, .finite b => if b = 0 then .nan else if 0 < b then .negInf else .inf
  | .finite a, .negInf => if a = 0 then .nan else if 0 < a then .negInf else .inf

/-- IEEE division on the float model.  A finite value divided by (positive)
zero gives `±inf` by the sign of the dividend, and `0.0 / 0.0` is NaN —
exactly the `x / 0.0` behaviour the engine relies on. -/
def fdiv : F64 → F64 → F64
  | .nan, _ => .nan
  | _, .nan => .nan
  | .inf, .inf => .nan
  | .inf, .negInf => .nan
  | .negInf, .inf => .nan
  | .negInf, .negInf => .nan
  | .inf, .finite b => if 0 ≤ b then .inf else .negInf
  | .negInf, .finite b => if 0 ≤ b then .negInf else .inf
  | .finite _, .inf => .finite 0
  | .finite _, .negInf => .finite 0
  | .finite a, .finite b =>
      if b = 0 then (if 0 < a then .inf else if a < 0 then .negInf else .nan)
      else .finite (a / b)

/-- IEEE remainder on the float model: `x % 0.0` and the infinite-dividend
cases are NaN; a finite dividend with infinite divisor is returned as is. -/
def frem : F64 → F64 → F64
  | .nan, _ => .nan
  | _, .nan => .nan
  | .inf, _ => .nan
  | .negInf, _ => .nan
  | .finite a, .inf => .finite a
  | .finite a, .negInf => .finite a
  | .finite a, .finite b =>
      if b = 0 then .nan
      else .finite (a - ((a / b).num.tdiv ((a / b).den : Int)) * b)

/-- IEEE equality on the float model, as produced by Rust's derived
`PartialEq` on an `f64` field: NaN is not equal to anything, including
itself. -/
def feqb : F64 → F64 → Bool
  | .finite a, .finite b => a = b
  | .inf, .inf => true
  | .negInf, .negInf => true
  | _, _ => false

/-- Three-way comparison of rationals, the ordering `BigRational::cmp`
computes. -/
def ratCmp (a b : Rat) : Ordering :=
  if a < b then .lt else if a = b then .eq else .gt

/-- Three-way comparison of integers, the ordering `BigInt::cmp` computes. -/
def intCmp (a b : Int) : Ordering :=
  if a < b then .lt else if a = b then .eq else .gt

/-- IEEE `partial_cmp` on the float model: `none` whenever either side is
NaN. -/
def fcmp : F64 → F64 → Option Ordering
  | .nan, _ => none
  | _, .nan => none
  | .finite a, .finite b => some (ratCmp a b)
  | .negInf, .negInf => some .eq
  | .negInf, _ => some .lt
  | _, .negInf => some .gt
  | .inf, .inf => some .eq
  | .inf, .finite _ => some .gt
  | .finite _, .inf => some .lt

/-- Transcendental `f64::powf`, used by `pow` only as a fallback for
exponents beyond `u32`.  Its value is not representable in the exact
rational float model and no verified claim depends on it; it is modelled
as an unspecified float (NaN). -/
def fpowf (_a _b : F64) : F64 := .nan

/-- `src/engine/errors.rs` (`EngineError`).  `types.rs` (`factorial`)
additionally constructs `EngineError::DomainError`, and the specification
lists `DomainError(message)` among the error kinds, so that variant is
included here. -/
inductive EngineError where
  | DivisionByZero
  | UndefinedVariable : String → EngineError
  | ArgumentMismatch : String → Nat → EngineError
  | UnknownFunction : String → EngineError
  | TypeMismatch : String → String → EngineError
  | ParserError : String → EngineError
  | DomainError : String → EngineError
  | Generic : String → EngineError
deriving DecidableEq, Repr

/-- `src/engine/types.rs` (`enum Number`): the closed numeric tower.
`Complex64` is a pair of doubles, modelled as two `F64` components. -/
inductive Number where
  | Integer : Int → Number
  | Rational : Rat → Number
  | Float : F64 → Number
  | Complex : F64 → F64 → Number
deriving DecidableEq, Repr

namespace Number

/-- `Number::to_complex` (types.rs).  `BigInt::to_f64`/`BigRational::to_f64`
are modelled as the exact finite value (idealized, no saturation). -/
def to_complex : Number → F64 × F64
  | .Integer i => (.finite i, .finite 0)
  | .Rational r => (.finite r, .finite 0)
  | .Float f => (f, .finite 0)
  | .Complex re im => (re, im)

/-- `Number::to_f64` (types.rs): `Some` for the real variants (idealized
exact conversion), and for a Complex only when its imaginary part is IEEE
zero. -/
def to_f64 : Number → Option F64
  | .Integer i => some (.finite i)
  | .Rational r => some (.finite r)
  | .Float f => some f
  | .Complex re im => if feqb im (.finite 0) then some re else none

/-- The `.to_f64().unwrap_or(f64::NAN)` pattern used by `promote`. -/
def toF64orNaN (n : Number) : F64 := (n.to_f64).getD .nan

end Number

/-- `promote` (types.rs): pairwise promotion.  The match arms are in the
source order; in particular the two `Float` arms come before the `Complex`
arms, so a `Float` paired with a `Complex` produces a `Float` pair. -/
def promote : Number → Number → Number × Number
  | .Integer l, .Integer r => (.Integer l, .Integer r)
  | .Integer l, .Rational r => (.Rational (l : Rat), .Rational r)
  | .Rational l, .Integer r => (.Rational l, .Rational (r : Rat))
  | .Rational l, .Rational r => (.Rational l, .Rational r)
  | .Float l, r => (.Float l, .Float r.toF64orNaN)
  | l, .Float r => (.Float l.toF64orNaN, .Float r)
  | .Complex lre lim, r =>
      (.Complex lre lim, .Complex r.to_complex.1 r.to_complex.2)
  | l, .Complex rre rim =>
      (.Complex l.to_complex.1 l.to_complex.2, .Complex rre rim)

/-- Complex addition (componentwise, on the float model). -/
def cadd (a b : F64 × F64) : F64 × F64 := (fadd a.1 b.1, fadd a.2 b.2)

/-- Complex subtraction. -/
def csub (a b : F64 × F64) : F64 × F64 := (fsub a.1 b.1, fsub a.2 b.2)

/-- Complex multiplication: `(ac − bd, ad + bc)`. -/
def cmul (a b : F64 × F64) : F64 × F64 :=
  (fsub (fmul a.1 b.1) (fmul a.2 b.2), fadd (fmul a.1 b.2) (fmul a.2 b.1))

/-- Complex division by the standard formula
`((ac + bd) / (c² + d²), (bc − ad) / (c² + d²))`. -/
def cdiv (a b : F64 × F64) : F64 × F64 :=
  let den := fadd (fmul b.1 b.1) (fmul b.2 b.2)
  (fdiv (fadd (fmul a.1 b.1) (fmul a.2 b.2)) den,
   fdiv (fsub (fmul a.2 b.1) (fmul a.1 b.2)) den)

/-- Transcendental `Complex64::powc`.  Not representable in the exact
rational float model and examined by no verified claim; modelled as an
unspecified complex value (NaN pair). -/
def cpow (_a _b : F64 × F64) : F64 × F64 := (.nan, .nan)

/-- The body shared by the `impl_binary_op!` macro instances (types.rs):
promote, then apply the variant-wise operation.  The catch-all arm models
the `unreachable!` panic as `none`. -/
def liftBin (fi : Int → Int → Int) (fq : Rat → Rat → Rat)
    (ff : F64 → F64 → F64) (fc : F64 × F64 → F64 × F64 → F64 × F64)
    (a b : Number) : Option Number :=
  match promote a b with
  | (.Integer l, .Integer r) => some (.Integer (fi l r))
  | (.Rational l, .Rational r) => some (.Rational (fq l r))
  | (.Float l, .Float r) => some (.Float (ff l r))
  | (.Complex lre lim, .Complex rre rim) =>
      some (.Complex (fc (lre, lim) (rre, rim)).1 (fc (lre, lim) (rre, rim)).2)
  | _ => none

/-- `impl Add for Number` (via `impl_binary_op!`). -/
def numAdd : Number → Number → Option Number :=
  liftBin (· + ·) (· + ·) fadd cadd

/-- `impl Sub for Number` (via `impl_binary_op!`). -/
def numSub : Number → Number → Option Number :=
  liftBin (· - ·) (· - ·) fsub csub

/-- `impl Mul for Number` (via `impl_binary_op!`). -/
def numMul : Number → Number → Option Number :=
  liftBin (· * ·) (· * ·) fmul cmul

/-- `impl Div for Number` (types.rs): the Integer ÷ Integer special case
producing an exact `Rational` (or IEEE `x / 0.0` as a `Float` on a zero
divisor), then the promoted cases.  `BigRational::new(l, r)` is the reduced
fraction `l / r`. -/
def numDiv (a b : Number) : Option Number :=
  match a, b with
  | .Integer l, .Integer r =>
      if r = 0 then some (.Float (fdiv (.finite l) (.finite 0)))
      else some (.Rational (Rat.divInt l r))
  | l, r =>
      match promote l r with
      | (.Rational l', .Rational r') =>
          if r' = 0 then some (.Float (fdiv (.finite l') (.finite 0)))
          else some (.Rational (l' / r'))
      | (.Float l', .Float r') => some (.Float (fdiv l' r'))
      | (.Complex lre lim, .Complex rre rim) =>
          some (.Complex (cdiv (lre, lim) (rre, rim)).1
            (cdiv (lre, lim) (rre, rim)).2)
      | _ => none

/-- `impl Neg for Number` (types.rs): variant-preserving negation. -/
def numNeg : Number → Number
  | .Integer i => .Integer (-i)
  | .Rational r => .Rational (-r)
  | .Float f => .Float (fneg f)
  | .Complex re im => .Complex (fneg re) (fneg im)

/-- `impl Rem for Number` (types.rs).  `BigInt % BigInt` truncates toward
zero and panics on a zero divisor; `Ratio % Ratio` computes
`a − trunc(a/b)·b` through a `BigInt` remainder, so it also panics when the
divisor is zero.  Both panics are modelled as `none`.  Complex % Complex is
the deliberate `f64::NAN` sentinel. -/
def numRem (a b : Number) : Option Number :=
  match promote a b with
  | (.Integer l, .Integer r) =>
      if r = 0 then none else some (.Integer (Int.tmod l r))
  | (.Rational l, .Rational r) =>
      if r = 0 then none
      else some (.Rational (l - ((l / r).num.tdiv (((l / r).den : Int))) * r))
  | (.Float l, .Float r) => some (.Float (frem l r))
  | (.Complex _ _, .Complex _ _) => some (.Float .nan)
  | _ => none

/-- `pow` (types.rs).  `e.to_u32()` succeeds exactly on `0 ≤ e < 2^32`;
both overflow paths fall back to `f64::powf`; all non Integer–Integer
pairs promote to Complex and use `powc`. -/
def numPow (a b : Number) : Number :=
  match a, b with
  | .Integer bi, .Integer e =>
      if 0 ≤ e then
        if e < 4294967296 then .Integer (bi ^ e.toNat)
        else .Float (fpowf (.finite bi) (.finite e))
      else
        if -e < 4294967296 then
          let den := bi ^ (-e).toNat
          if den = 0 then .Float .inf
          else .Rational (Rat.divInt 1 den)
        else .Float (fpowf (.finite bi) (.finite e))
  | a', b' =>
      .Complex (cpow a'.to_complex b'.to_complex).1
        (cpow a'.to_complex b'.to_complex).2

/-- The iterative accumulation loop in `factorial` (types.rs):
`acc := 1; k := 1; while k ≤ i { acc := acc * k; k := k + 1 }`, with the
remaining iteration count as the structural argument. -/
def facGo (acc k : Int) : Nat → Int
  | 0 => acc
  | n + 1 => facGo (acc * k) (k + 1) n

/-- `factorial` (types.rs): defined on non-negative Integers by the
iterative loop; every other input is a `DomainError`. -/
def factorial : Number → Except EngineError Number
  | .Integer i =>
      if i < 0 then .error (.DomainError "Factorial of negative integer")
      else .ok (.Integer (facGo 1 1 i.toNat))
  | _ => .error (.DomainError "Factorial only implemented for Integers currently")

/-- `PartialOrd for Number::partial_cmp` (types.rs): promote, then compare
same-variant values; any pair still containing a Complex after promotion is
incomparable. -/
def numCmp (a b : Number) : Option Ordering :=
  match promote a b with
  | (.Integer l, .Integer r) => some (intCmp l r)
  | (.Rational l, .Rational r) => some (ratCmp l r)
  | (.Float l, .Float r) => fcmp l r
  | _ => none

/-- The derived `PartialEq` on `Number` (types.rs `#[derive(PartialEq)]`):
structural variant equality, with IEEE equality on the float payloads.  It
does not promote. -/
def numberEqb : Number → Number → Bool
  | .Integer l, .Integer r => l = r
  | .Rational l, .Rational r => l = r
  | .Float l, .Float r => feqb l r
  | .Complex lre lim, .Complex rre rim => feqb lre rre && feqb lim rim
  | _, _ => false

/-- One scope: a mapping from variable name to a (shared) `Number`.  The
Rust `HashMap` is modelled as an association list with insert-or-replace
semantics; only `insert`, `get` and `contains_key` are used by the engine,
and the model's `mapInsert`/`mapGet`/`mapContains` reproduce them. -/
abbrev ScopeMap := List (String × Number)

/-- `HashMap::get`. -/
def mapGet : ScopeMap → String → Option Number
  | [], _ => none
  | (k', v') :: rest, k => if k' = k then some v' else mapGet rest k

/-- `HashMap::insert` (replace an existing key, else add the entry). -/
def mapInsert : ScopeMap → String → Number → ScopeMap
  | [], k, v => [(k, v)]
  | (k', v') :: rest, k, v =>
      if k' = k then (k, v) :: rest else (k', v') :: mapInsert rest k v

/-- `HashMap::contains_key`. -/
def mapContains (m : ScopeMap) (k : String) : Bool := (mapGet m k).isSome

/-- `src/engine/ast.rs` (`enum BinaryOp`). -/
inductive BinOp where
  | Add | Sub | Mul | Div | Mod | Pow
deriving DecidableEq, Repr

/-- `src/engine/ast.rs` (`enum UnaryOp`). -/
inductive UnOp where
  | Neg | Factorial
deriving DecidableEq, Repr

/-- `src/engine/ast.rs` (`Expr`): the AST. -/
inductive Expr where
  | Literal : Number → Expr
  | Variable : String → Expr
  | BinaryOp : BinOp → Expr → Expr → Expr
  | UnaryOp : UnOp → Expr → Expr
  | FunctionCall : String → List Expr → Expr
  | Assignment : String → Expr → Expr
  | FunctionDef : String → List String → Expr → Expr

/-- `src/engine/ast.rs` (`UserFunction`): ordered parameter names plus the
body expression. -/
structure UserFunction where
  params : List String
  body : Expr

/-- `src/engine/ast.rs` (`Context`): the ordered scope stack (global scope
first, innermost scope last, matching the `Vec`) and the flat user-function
table. -/
structure Context where
  scopes : List ScopeMap
  functions : List (String × UserFunction)

/-- Function-table lookup (`context.functions.get(name)`). -/
def findFun : List (String × UserFunction) → String → Option UserFunction
  | [], _ => none
  | (k', f) :: rest, k => if k' = k then some f else findFun rest k

/-- Function-table insert (`context.functions.insert(name, func)`),
overwriting any previous definition of the same name. -/
def insertFun : List (String × UserFunction) → String → UserFunction →
    List (String × UserFunction)
  | [], k, f => [(k, f)]
  | (k', f') :: rest, k, f =>
      if k' = k then (k, f) :: rest else (k', f') :: insertFun rest k f

/-- `Context::new` / `Context::default`: one empty global scope, no
functions. -/
def Context.new : Context := ⟨[[]], []⟩

/-- The innermost-to-outermost search of `Context::get_var`
(`scopes.iter().rev()`), expressed on the reversed scope list. -/
def getVarL : List ScopeMap → String → Option Number
  | [], _ => none
  | s :: rest, k =>
      match mapGet s k with
      | some v => some v
      | none => getVarL rest k

/-- `Context::get_var` (ast.rs): search scopes from innermost (last) to
outermost (first) and return the first match. -/
def Context.get_var (c : Context) (k : String) : Option Number :=
  getVarL c.scopes.reverse k

/-- The search pass of `Context::set_var` on the reversed scope list:
update the first scope (innermost outward) that contains the name, or
report `none` when no scope does. -/
def setVarL : List ScopeMap → String → Number → Option (List ScopeMap)
  | [], _, _ => none
  | s :: rest, k, v =>
      if mapContains s k then some (mapInsert s k v :: rest)
      else (setVarL rest k v).map (s :: ·)

/-- `Context::set_var` (ast.rs): update-or-define.  Search every scope
from innermost to outermost and overwrite the first existing binding;
otherwise define the name in the current (innermost) scope
(`scopes.last_mut()`). -/
def Context.set_var (c : Context) (k : String) (v : Number) : Context :=
  match setVarL c.scopes.reverse k v with
  | some l => { c with scopes := l.reverse }
  | none =>
      match c.scopes.reverse with
      | [] => c
      | s :: rest => { c with scopes := (mapInsert s k v :: rest).reverse }

/-- `Context::define_var` (ast.rs): force the binding into the current
(innermost) scope; used only for function parameters. -/
def Context.define_var (c : Context) (k : String) (v : Number) : Context :=
  match c.scopes.reverse with
  | [] => c
  | s :: rest => { c with scopes := (mapInsert s k v :: rest).reverse }

/-- `Context::push_scope` (ast.rs). -/
def Context.push_scope (c : Context) : Context :=
  { c with scopes := c.scopes ++ [[]] }

/-- `Context::pop_scope` (ast.rs): pop the innermost scope, except that the
global scope (stack length 1) is never popped. -/
def Context.pop_scope (c : Context) : Context :=
  if 1 < c.scopes.length then { c with scopes := c.scopes.dropLast } else c

mutual

/-- Structural weight of an expression, the termination measure for the
evaluator (every node weighs at least 1). -/
def Ew : Expr → Nat
  | .Literal _ => 1
  | .Variable _ => 1
  | .BinaryOp _ l r => 1 + Ew l + Ew r
  | .UnaryOp _ sub => 1 + Ew sub
  | .FunctionCall _ args => 1 + Ews args
  | .Assignment _ sub => 1 + Ew sub
  | .FunctionDef _ _ body => 1 + Ew body

/-- Weight of an argument list. -/
def Ews : List Expr → Nat
  | [] => 0
  | e :: es => 1 + Ew e + Ews es

end

/-- Weight of a collected work list of `(operator, right operand)` pairs. -/
def Ewp : List (BinOp × Expr) → Nat
  | [] => 0
  | (_, rhs) :: rest => 1 + Ew rhs + Ewp rest

theorem Ew_pos : ∀ e : Expr, 1 ≤ Ew e := by
  intro e; cases e <;> simp only [Ew] <;> omega

/-- The left-spine walk of `Expr::eval` (ast.rs): while the current node is
a `BinaryOp`, push the `(operator, right operand)` pair onto the work list
and descend into the left child.  The list head is the top of the Rust
`Vec` stack (the most recently pushed pair). -/
def collectSpine : Expr → List (BinOp × Expr) → List (BinOp × Expr) × Expr
  | .BinaryOp op l r, st => collectSpine l ((op, r) :: st)
  | e, st => (st, e)

theorem collectSpine_weight : ∀ (e : Expr) (st : List (BinOp × Expr)),
    Ewp (collectSpine e st).1 + Ew (collectSpine e st).2 = Ew e + Ewp st
  | .BinaryOp op l r, st => by
      have ih := collectSpine_weight l ((op, r) :: st)
      simp only [collectSpine] at *
      simp only [Ewp, Ew] at *
      omega
  | .Literal _, _ => by simp [collectSpine]; omega
  | .Variable _, _ => by simp [collectSpine]; omega
  | .UnaryOp _ _, _ => by simp [collectSpine]; omega
  | .FunctionCall _ _, _ => by simp [collectSpine]; omega
  | .Assignment _ _, _ => by simp [collectSpine]; omega
  | .FunctionDef _ _ _, _ => by simp [collectSpine]; omega

theorem collectSpine_acc : ∀ (e : Expr) (st : List (BinOp × Expr)),
    collectSpine e st = ((collectSpine e []).1 ++ st, (collectSpine e []).2)
  | .BinaryOp op l r, st => by
      have ih1 := collectSpine_acc l ((op, r) :: st)
      have ih2 := collectSpine_acc l [(op, r)]
      simp only [collectSpine]
      rw [ih1, ih2]
      simp
  | .Literal _, _ => by simp [collectSpine]
  | .Variable _, _ => by simp [collectSpine]
  | .UnaryOp _ _, _ => by simp [collectSpine]
  | .FunctionCall _ _, _ => by simp [collectSpine]
  | .Assignment _ _, _ => by simp [collectSpine]
  | .FunctionDef _ _ _, _ => by simp [collectSpine]

/-- Result of one evaluation: `none` models a Rust panic; otherwise the
(possibly mutated) context together with `Ok`/`Err`. -/
abbrev EvalResult := Option (Context × Except EngineError Number)

/-- The control flow of Rust's `?` operator on `Result`, with the mutated
context threaded through: propagate panic and error, continue on success. -/
def andThen {α β : Type} (x : Option (Context × Except EngineError α))
    (f : Context → α → Option (Context × Except EngineError β)) :
    Option (Context × Except EngineError β) :=
  match x with
  | none => none
  | some (c, .error err) => some (c, .error err)
  | some (c, .ok v) => f c v

/-- Dispatch of the operator match in the unwind loop of `Expr::eval`
(ast.rs): `+ - * / %` and `pow`.  `none` is a panic inside the numeric
operation. -/
def applyBin : BinOp → Number → Number → Option Number
  | .Add, a, b => numAdd a b
  | .Sub, a, b => numSub a b
  | .Mul, a, b => numMul a b
  | .Div, a, b => numDiv a b
  | .Mod, a, b => numRem a b
  | .Pow, a, b => some (numPow a b)

/-- Parameter binding on call entry (ast.rs):
`params.iter().zip(args.iter())` with `define_var`, in order. -/
def bindParams : Context → List String → List Number → Context
  | c, p :: ps, a :: rest => bindParams (c.define_var p a) ps rest
  | c, _, _ => c

/-- Modelled from the spec: the external Function Registry (spec §6) is an
external collaborator whose concrete primitives (trigonometry, statistics,
…) are out of core scope; it is modelled as the empty registry, so a name
absent from the user-function table surfaces `UnknownFunction` verbatim
(`functions::apply` in `src/engine/functions/mod.rs`). -/
def registryApply (name : String) (_args : List Number) :
    Except EngineError Number :=
  .error (.UnknownFunction name)

/-- The unary-operator match of `Expr::eval` (ast.rs): negation or
factorial applied to the evaluated operand. -/
def applyUn (op : UnOp) (c : Context) (v : Number) : EvalResult :=
  match op with
  | .Neg => some (c, .ok (numNeg v))
  | .Factorial => some (c, factorial v)

mutual

/-- `Expr::eval` (ast.rs): iterative left-spine traversal.  Collect
`(operator, right operand)` pairs while walking down the left side, then
evaluate the non-binary leaf with ordinary recursion, then unwind the work
list from the most recently pushed pair.  `fuel` bounds only user-function
body recursion (the single source of non-termination); it is decremented
exactly when entering a user-function body. -/
def Expr.eval (fuel : Nat) (e : Expr) (ctx : Context) : EvalResult :=
  match hcs : collectSpine e [] with
  | (st, leaf) =>
    andThen
      (match hlf : leaf with
        | .Literal n => some (ctx, .ok n)
        | .Variable name =>
            match ctx.get_var name with
            | some v => some (ctx, .ok v)
            | none => some (ctx, .error (.UndefinedVariable name))
        | .Assignment name sub =>
            andThen (Expr.eval fuel sub ctx)
              (fun c v => some (c.set_var name v, .ok v))
        | .FunctionDef name params body =>
            some ({ ctx with
                      functions := insertFun ctx.functions name ⟨params, body⟩ },
                  .ok (.Integer 0))
        | .UnaryOp op sub =>
            andThen (Expr.eval fuel sub ctx) (fun c v => applyUn op c v)
        | .FunctionCall name argEs =>
            andThen (evalArgs fuel argEs ctx) (fun c args =>
              match findFun c.functions name with
              | some uf =>
                  if args.length ≠ uf.params.length then
                    some (c, .error (.ArgumentMismatch name uf.params.length))
                  else
                    match fuel with
                    | 0 => none
                    | fuel' + 1 =>
                        match Expr.eval fuel' uf.body
                            (bindParams c.push_scope uf.params args) with
                        | none => none
                        | some (c2, res) => some (c2.pop_scope, res)
              | none => some (c, registryApply name args))
        | .BinaryOp _ _ _ => none)
      (fun c v => unwind fuel st c v)
termination_by (fuel, Ew e)
decreasing_by
all_goals
  first
  | (apply Prod.Lex.left
     omega)
  | (apply Prod.Lex.right
     have hw := collectSpine_weight e []
     rw [hcs] at hw
     simp only [Ewp, Nat.add_zero] at hw
     try subst hlf
     try simp only [Ew, Ews] at hw
     try have hp := Ew_pos leaf
     omega)

/-- The unwind loop of `Expr::eval` (ast.rs): pop the most recently pushed
`(operator, right operand)` pair, evaluate the right operand recursively,
apply the operator against the running result, repeat. -/
def unwind (fuel : Nat) (st : List (BinOp × Expr)) (ctx : Context)
    (acc : Number) : EvalResult :=
  match st with
  | [] => some (ctx, .ok acc)
  | (op, rhs) :: rest =>
      andThen (Expr.eval fuel rhs ctx) (fun c rv =>
        match applyBin op acc rv with
        | none => none
        | some n => unwind fuel rest c n)
termination_by (fuel, Ewp st)
decreasing_by
all_goals
  first
  | (apply Prod.Lex.left
     omega)
  | (apply Prod.Lex.right
     simp only [Ewp]
     omega)

/-- Left-to-right evaluation of call arguments in the caller's scope chain
(the `for arg_expr in args_exprs` loop of ast.rs). -/
def evalArgs (fuel : Nat) (es : List Expr) (ctx : Context) :
    Option (Context × Except EngineError (List Number)) :=
  match es with
  | [] => some (ctx, .ok [])
  | a :: rest =>
      andThen (Expr.eval fuel a ctx) (fun c v =>
        andThen (evalArgs fuel rest c) (fun c2 vs => some (c2, .ok (v :: vs))))
termination_by (fuel, Ews es)
decreasing_by
all_goals
  first
  | (apply Prod.Lex.left
     omega)
  | (apply Prod.Lex.right
     simp only [Ews]
     omega)

end

mutual

/-- Modelled from the spec: "ordinary recursive evaluation of the same
tree" — the reference evaluator against which the iterative left-spine
strategy of `Expr::eval` is compared.  A `BinaryOp` node evaluates its left
child, then its right child, then applies the operator; every other
construct is evaluated exactly as in `Expr.eval`, and fuel is decremented
at exactly the same point (user-function body entry). -/
def evalRec (fuel : Nat) (e : Expr) (ctx : Context) : EvalResult :=
  match e with
  | .BinaryOp op l r =>
      andThen (evalRec fuel l ctx) (fun c lv =>
        andThen (evalRec fuel r c) (fun c2 rv =>
          match applyBin op lv rv with
          | none => none
          | some n => some (c2, .ok n)))
  | .Literal n => some (ctx, .ok n)
  | .Variable name =>
      match ctx.get_var name with
      | some v => some (ctx, .ok v)
      | none => some (ctx, .error (.UndefinedVariable name))
  | .Assignment name sub =>
      andThen (evalRec fuel sub ctx)
        (fun c v => some (c.set_var name v, .ok v))
  | .FunctionDef name params body =>
      some ({ ctx with
                functions := insertFun ctx.functions name ⟨params, body⟩ },
            .ok (.Integer 0))
  | .UnaryOp op sub =>
      andThen (evalRec fuel sub ctx) (fun c v => applyUn op c v)
  | .FunctionCall name argEs =>
      andThen (evalRecArgs fuel argEs ctx) (fun c args =>
        match findFun c.functions name with
        | some uf =>
            if args.length ≠ uf.params.length then
              some (c, .error (.ArgumentMismatch name uf.params.length))
            else
              match fuel with
              | 0 => none
              | fuel' + 1 =>
                  match evalRec fuel' uf.body
                      (bindParams c.push_scope uf.params args) with
                  | none => none
                  | some (c2, res) => some (c2.pop_scope, res)
        | none => some (c, registryApply name args))
termination_by (fuel, Ew e)
decreasing_by
all_goals
  first
  | (apply Prod.Lex.left
     omega)
  | (apply Prod.Lex.right
     simp only [Ew, Ews]
     omega)

/-- Argument-list evaluation for the reference evaluator. -/
def evalRecArgs (fuel : Nat) (es : List Expr) (ctx : Context) :
    Option (Context × Except EngineError (List Number)) :=
  match es with
  | [] => some (ctx, .ok [])
  | a :: rest =>
      andThen (evalRec fuel a ctx) (fun c v =>
        andThen (evalRecArgs fuel rest c)
          (fun c2 vs => some (c2, .ok (v :: vs))))
termination_by (fuel, Ews es)
decreasing_by
all_goals
  first
  | (apply Prod.Lex.left
     omega)
  | (apply Prod.Lex.right
     simp only [Ew, Ews]
     omega)

end

theorem andThen_pure {α : Type} (x : Option (Context × Except EngineError α)) :
    andThen x (fun c v => some (c, .ok v)) = x := by
  rcases x with _ | ⟨c, v | v⟩ <;> rfl

theorem andThen_assoc {α β γ : Type} (x : Option (Context × Except EngineError α))
    (f : Context → α → Option (Context × Except EngineError β))
    (g : Context → β → Option (Context × Except EngineError γ)) :
    andThen (andThen x f) g = andThen x (fun c v => andThen (f c v) g) := by
  rcases x with _ | ⟨c, v | v⟩ <;> rfl

theorem unwind_nil (fuel : Nat) (ctx : Context) (acc : Number) :
    unwind fuel [] ctx acc = some (ctx, .ok acc) := by
  rw [unwind.eq_def]

theorem unwind_cons (fuel : Nat) (op : BinOp) (rhs : Expr)
    (rest : List (BinOp × Expr)) (ctx : Context) (acc : Number) :
    unwind fuel ((op, rhs) :: rest) ctx acc =
      andThen (Expr.eval fuel rhs ctx) (fun c rv =>
        match applyBin op acc rv with
        | none => none
        | some n => unwind fuel rest c n) := by
  rw [unwind.eq_def]

theorem evalArgs_nil (fuel : Nat) (ctx : Context) :
    evalArgs fuel [] ctx = some (ctx, .ok []) := by
  rw [evalArgs.eq_def]

theorem evalArgs_cons (fuel : Nat) (a : Expr) (rest : List Expr) (ctx : Context) :
    evalArgs fuel (a :: rest) ctx =
      andThen (Expr.eval fuel a ctx) (fun c v =>
        andThen (evalArgs fuel rest c) (fun c2 vs => some (c2, .ok (v :: vs)))) := by
  rw [evalArgs.eq_def]

/-- The leaf evaluation of `Expr::eval` as a standalone function: the match
on the non-binary leftmost node reached by the spine walk (the `BinaryOp`
arm is the `unreachable!`). -/
def evalLeafFn (fuel : Nat) (leaf : Expr) (ctx : Context) : EvalResult :=
  match leaf with
  | .Literal n => some (ctx, .ok n)
  | .Variable name =>
      match ctx.get_var name with
      | some v => some (ctx, .ok v)
      | none => some (ctx, .error (.UndefinedVariable name))
  | .Assignment name sub =>
      andThen (Expr.eval fuel sub ctx)
        (fun c v => some (c.set_var name v, .ok v))
  | .FunctionDef name params body =>
      some ({ ctx with
                functions := insertFun ctx.functions name ⟨params, body⟩ },
            .ok (.Integer 0))
  | .UnaryOp op sub =>
      andThen (Expr.eval fuel sub ctx) (fun c v => applyUn op c v)
  | .FunctionCall name argEs =>
      andThen (evalArgs fuel argEs ctx) (fun c args =>
        match findFun c.functions name with
        | some uf =>
            if args.length ≠ uf.params.length then
              some (c, .error (.ArgumentMismatch name uf.params.length))
            else
              match fuel with
              | 0 => none
              | fuel' + 1 =>
                  match Expr.eval fuel' uf.body
                      (bindParams c.push_scope uf.params args) with
                  | none => none
                  | some (c2, res) => some (c2.pop_scope, res)
        | none => some (c, registryApply name args))
  | .BinaryOp _ _ _ => none

/-- `Expr.eval` decomposed: spine walk, leaf evaluation, unwind. -/
theorem eval_decomp (fuel : Nat) (e : Expr) (ctx : Context)
    (st : List (BinOp × Expr)) (leaf : Expr)
    (h : collectSpine e [] = (st, leaf)) :
    Expr.eval fuel e ctx =
      andThen (evalLeafFn fuel leaf ctx) (fun c v => unwind fuel st c v) := by
  rw [Expr.eval]
  split
  next st' leaf' heq =>
    rw [h] at heq
    injection heq with h1 h2
    subst h1
    subst h2
    congr 1
    cases leaf <;> rfl

/-- Unfolding of `Expr.eval` on a `Literal`. -/
theorem eval_Literal (fuel : Nat) (n : Number) (ctx : Context) :
    Expr.eval fuel (.Literal n) ctx = some (ctx, .ok n) := by
  rw [eval_decomp fuel (.Literal n) ctx [] (.Literal n) rfl]
  simp [evalLeafFn, andThen, unwind_nil]

/-- Unfolding of `Expr.eval` on a `Variable`. -/
theorem eval_Variable (fuel : Nat) (name : String) (ctx : Context) :
    Expr.eval fuel (.Variable name) ctx =
      (match ctx.get_var name with
       | some v => some (ctx, .ok v)
       | none => some (ctx, .error (.UndefinedVariable name))) := by
  rw [eval_decomp fuel (.Variable name) ctx [] (.Variable name) rfl]
  cases h : ctx.get_var name <;> simp [evalLeafFn, andThen, h, unwind_nil]

/-- Unfolding of `Expr.eval` on an `Assignment`. -/
theorem eval_Assignment (fuel : Nat) (name : String) (sub : Expr)
    (ctx : Context) :
    Expr.eval fuel (.Assignment name sub) ctx =
      andThen (Expr.eval fuel sub ctx)
        (fun c v => some (c.set_var name v, .ok v)) := by
  rw [eval_decomp fuel (.Assignment name sub) ctx [] (.Assignment name sub) rfl]
  simp only [evalLeafFn, unwind_nil, andThen_pure]

/-- Unfolding of `Expr.eval` on a `FunctionDef`. -/
theorem eval_FunctionDef (fuel : Nat) (name : String) (params : List String)
    (body : Expr) (ctx : Context) :
    Expr.eval fuel (.FunctionDef name params body) ctx =
      some ({ ctx with
                functions := insertFun ctx.functions name ⟨params, body⟩ },
            .ok (.Integer 0)) := by
  rw [eval_decomp fuel (.FunctionDef name params body) ctx []
    (.FunctionDef name params body) rfl]
  simp [evalLeafFn, andThen, unwind_nil]

/-- Unfolding of `Expr.eval` on a `UnaryOp`. -/
theorem eval_UnaryOp (fuel : Nat) (op : UnOp) (sub : Expr) (ctx : Context) :
    Expr.eval fuel (.UnaryOp op sub) ctx =
      andThen (Expr.eval fuel sub ctx) (fun c v => applyUn op c v) := by
  rw [eval_decomp fuel (.UnaryOp op sub) ctx [] (.UnaryOp op sub) rfl]
  simp only [evalLeafFn, unwind_nil, andThen_pure]

/-- Unfolding of `Expr.eval` on a `FunctionCall`. -/
theorem eval_FunctionCall (fuel : Nat) (name : String) (argEs : List Expr)
    (ctx : Context) :
    Expr.eval fuel (.FunctionCall name argEs) ctx =
      andThen (evalArgs fuel argEs ctx) (fun c args =>
        match findFun c.functions name with
        | some uf =>
            if args.length ≠ uf.params.length then
              some (c, .error (.ArgumentMismatch name uf.params.length))
            else
              match fuel with
              | 0 => none
              | fuel' + 1 =>
                  match Expr.eval fuel' uf.body
                      (bindParams c.push_scope uf.params args) with
                  | none => none
                  | some (c2, res) => some (c2.pop_scope, res)
        | none => some (c, registryApply name args)) := by
  rw [eval_decomp fuel (.FunctionCall name argEs) ctx []
    (.FunctionCall name argEs) rfl]
  simp only [evalLeafFn, unwind_nil, andThen_pure]

/-- Unwinding distributes over an appended work list. -/
theorem unwind_append (fuel : Nat) (st st2 : List (BinOp × Expr))
    (ctx : Context) (acc : Number) :
    unwind fuel (st ++ st2) ctx acc =
      andThen (unwind fuel st ctx acc) (fun c v => unwind fuel st2 c v) := by
  induction st generalizing ctx acc with
  | nil => simp [unwind_nil, andThen]
  | cons p rest ih =>
      obtain ⟨op, rhs⟩ := p
      simp only [List.cons_append, unwind_cons, andThen_assoc]
      congr 1
      funext c rv
      cases applyBin op acc rv with
      | none => simp [andThen]
      | some n => simp [andThen, ih]

/-- Unfolding of `Expr.eval` on a `BinaryOp`: the iterative spine walk
satisfies the ordinary recursive equation — evaluate the left child, then
the right child, then apply the operator. -/
theorem eval_BinaryOp (fuel : Nat) (op : BinOp) (l r : Expr) (ctx : Context) :
    Expr.eval fuel (.BinaryOp op l r) ctx =
      andThen (Expr.eval fuel l ctx) (fun c lv =>
        andThen (Expr.eval fuel r c) (fun c2 rv =>
          match applyBin op lv rv with
          | none => none
          | some n => some (c2, .ok n))) := by
  rcases hsl : collectSpine l [] with ⟨stl, leafl⟩
  have h1 : collectSpine (Expr.BinaryOp op l r) [] = (stl ++ [(op, r)], leafl) := by
    simp only [collectSpine]
    rw [collectSpine_acc l [(op, r)], hsl]
  rw [eval_decomp fuel _ ctx _ _ h1]
  have h2 : Expr.eval fuel l ctx =
      andThen (evalLeafFn fuel leafl ctx) (fun c v => unwind fuel stl c v) :=
    eval_decomp fuel l ctx stl leafl hsl
  simp only [unwind_append, andThen_assoc]
  rw [← andThen_assoc, ← h2]
  congr 1
  funext c lv
  rw [unwind_cons]
  congr 1
  funext c2 rv
  cases applyBin op lv rv with
  | none => rfl
  | some n => simp [unwind_nil]

/-- Unfolding of `evalRec` on a `Literal`. -/
theorem evalRec_Literal (fuel : Nat) (n : Number) (ctx : Context) :
    evalRec fuel (.Literal n) ctx = some (ctx, .ok n) := by
  rw [evalRec.eq_def]

/-- Unfolding of `evalRec` on a `Variable`. -/
theorem evalRec_Variable (fuel : Nat) (name : String) (ctx : Context) :
    evalRec fuel (.Variable name) ctx =
      (match ctx.get_var name with
       | some v => some (ctx, .ok v)
       | none => some (ctx, .error (.UndefinedVariable name))) := by
  rw [evalRec.eq_def]

/-- Unfolding of `evalRec` on an `Assignment`. -/
theorem evalRec_Assignment (fuel : Nat) (name : String) (sub : Expr)
    (ctx : Context) :
    evalRec fuel (.Assignment name sub) ctx =
      andThen (evalRec fuel sub ctx)
        (fun c v => some (c.set_var name v, .ok v)) := by
  rw [evalRec.eq_def]

/-- Unfolding of `evalRec` on a `FunctionDef`. -/
theorem evalRec_FunctionDef (fuel : Nat) (name : String)
    (params : List String) (body : Expr) (ctx : Context) :
    evalRec fuel (.FunctionDef name params body) ctx =
      some ({ ctx with
                functions := insertFun ctx.functions name ⟨params, body⟩ },
            .ok (.Integer 0)) := by
  rw [evalRec.eq_def]

/-- Unfolding of `evalRec` on a `UnaryOp`. -/
theorem evalRec_UnaryOp (fuel : Nat) (op : UnOp) (sub : Expr)
    (ctx : Context) :
    evalRec fuel (.UnaryOp op sub) ctx =
      andThen (evalRec fuel sub ctx) (fun c v => applyUn op c v) := by
  rw [evalRec.eq_def]

/-- Unfolding of `evalRec` on a `FunctionCall`. -/
theorem evalRec_FunctionCall (fuel : Nat) (name : String)
    (argEs : List Expr) (ctx : Context) :
    evalRec fuel (.FunctionCall name argEs) ctx =
      andThen (evalRecArgs fuel argEs ctx) (fun c args =>
        match findFun c.functions name with
        | some uf =>
            if args.length ≠ uf.params.length then
              some (c, .error (.ArgumentMismatch name uf.params.length))
            else
              match fuel with
              | 0 => none
              | fuel' + 1 =>
                  match evalRec fuel' uf.body
                      (bindParams c.push_scope uf.params args) with
                  | none => none
                  | some (c2, res) => some (c2.pop_scope, res)
        | none => some (c, registryApply name args)) := by
  rw [evalRec.eq_def]

/-- Unfolding of `evalRec` on a `BinaryOp`. -/
theorem evalRec_BinaryOp (fuel : Nat) (op : BinOp) (l r : Expr)
    (ctx : Context) :
    evalRec fuel (.BinaryOp op l r) ctx =
      andThen (evalRec fuel l ctx) (fun c lv =>
        andThen (evalRec fuel r c) (fun c2 rv =>
          match applyBin op lv rv with
          | none => none
          | some n => some (c2, .ok n))) := by
  rw [evalRec.eq_def]

/-- Unfolding of `evalRecArgs` on the empty list. -/
theorem evalRecArgs_nil (fuel : Nat) (ctx : Context) :
    evalRecArgs fuel [] ctx = some (ctx, .ok []) := by
  rw [evalRecArgs.eq_def]

/-- Unfolding of `evalRecArgs` on a cons. -/
theorem evalRecArgs_cons (fuel : Nat) (a : Expr) (rest : List Expr)
    (ctx : Context) :
    evalRecArgs fuel (a :: rest) ctx =
      andThen (evalRec fuel a ctx) (fun c v =>
        andThen (evalRecArgs fuel rest c)
          (fun c2 vs => some (c2, .ok (v :: vs)))) := by
  rw [evalRecArgs.eq_def]

theorem Ews_mem_le : ∀ (es : List Expr), ∀ a ∈ es, Ew a ≤ Ews es := by
  intro es
  induction es with
  | nil => intro a ha; cases ha
  | cons b rest ih =>
      intro a ha
      rcases List.mem_cons.mp ha with h | h
      · subst h; simp only [Ews]; omega
      · have := ih a h; simp only [Ews]; omega

/-- Pointwise equality of the evaluators lifts to argument lists. -/
theorem argsEq (fuel : Nat) (es : List Expr)
    (h : ∀ a ∈ es, ∀ ctx, Expr.eval fuel a ctx = evalRec fuel a ctx) :
    ∀ ctx, evalArgs fuel es ctx = evalRecArgs fuel es ctx := by
  induction es with
  | nil => intro ctx; rw [evalArgs_nil, evalRecArgs_nil]
  | cons a rest ih =>
      intro ctx
      rw [evalArgs_cons, evalRecArgs_cons, h a (by simp)]
      congr 1
      funext c v
      rw [ih (fun b hb => h b (List.mem_cons_of_mem a hb)) c]

/-- The iterative evaluator of the source agrees with the ordinary
recursive reference evaluator on every expression, every context and every
fuel bound — same result, same final context. -/
theorem eval_eq_evalRec : ∀ fuel (e : Expr) (ctx : Context),
    Expr.eval fuel e ctx = evalRec fuel e ctx := by
  intro fuel
  induction fuel using Nat.strong_induction_on with
  | _ fuel ihf =>
    suffices h : ∀ n e, Ew e ≤ n → ∀ ctx, Expr.eval fuel e ctx = evalRec fuel e ctx by
      intro e ctx
      exact h (Ew e) e le_rfl ctx
    intro n
    induction n with
    | zero =>
        intro e he
        have := Ew_pos e
        omega
    | succ n ihn =>
        intro e he ctx
        cases e with
        | Literal v => rw [eval_Literal, evalRec_Literal]
        | Variable name => rw [eval_Variable, evalRec_Variable]
        | FunctionDef name params body =>
            rw [eval_FunctionDef, evalRec_FunctionDef]
        | Assignment name sub =>
            have hs : Ew sub ≤ n := by simp only [Ew] at he; omega
            rw [eval_Assignment, evalRec_Assignment, ihn sub hs ctx]
        | UnaryOp op sub =>
            have hs : Ew sub ≤ n := by simp only [Ew] at he; omega
            rw [eval_UnaryOp, evalRec_UnaryOp, ihn sub hs ctx]
        | BinaryOp op l r =>
            have hl : Ew l ≤ n := by simp only [Ew] at he; omega
            have hr : Ew r ≤ n := by simp only [Ew] at he; omega
            rw [eval_BinaryOp, evalRec_BinaryOp, ihn l hl ctx]
            congr 1
            funext c lv
            rw [ihn r hr c]
        | FunctionCall name argEs =>
            have hargs : ∀ a ∈ argEs, Ew a ≤ n := by
              intro a ha
              have h1 := Ews_mem_le argEs a ha
              simp only [Ew] at he
              omega
            rw [eval_FunctionCall, evalRec_FunctionCall,
              argsEq fuel argEs (fun a ha ctx2 => ihn a (hargs a ha) ctx2) ctx]
            congr 1
            funext c args
            cases findFun c.functions name with
            | none => rfl
            | some uf =>
                simp only
                split
                · rfl
                · cases fuel with
                  | zero => rfl
                  | succ f =>
                      show (match Expr.eval f uf.body
                              (bindParams c.push_scope uf.params args) with
                            | none => none
                            | some (c2, res) => some (c2.pop_scope, res)) =
                          (match evalRec f uf.body
                              (bindParams c.push_scope uf.params args) with
                            | none => none
                            | some (c2, res) => some (c2.pop_scope, res))
                      rw [ihf f (Nat.lt_succ_self f)]


/-- A left-associative chain of `k + 1` ones:
`chainOnes k = (…((1 + 1) + 1) + … ) + 1`. -/
def chainOnes : Nat → Expr
  | 0 => .Literal (.Integer 1)
  | k + 1 => .BinaryOp .Add (chainOnes k) (.Literal (.Integer 1))

theorem chainOnes_eval (fuel : Nat) :
    ∀ (k : Nat) (ctx : Context),
      Expr.eval fuel (chainOnes k) ctx =
        some (ctx, .ok (.Integer ((k : Int) + 1))) := by
  intro k
  induction k with
  | zero => intro ctx; rw [chainOnes, eval_Literal]; norm_num
  | succ k ih =>
      intro ctx
      rw [chainOnes, eval_BinaryOp, ih ctx]
      simp only [andThen, eval_Literal]
      simp only [applyBin, numAdd, liftBin, promote]
      norm_num


/-- Inversion for `andThen`. -/
theorem andThen_some {α β : Type} {x : Option (Context × Except EngineError α)}
    {f : Context → α → Option (Context × Except EngineError β)} {c : Context}
    {r : Except EngineError β} (h : andThen x f = some (c, r)) :
    (∃ err, x = some (c, .error err) ∧ r = .error err) ∨
    (∃ c1 v, x = some (c1, .ok v) ∧ f c1 v = some (c, r)) := by
  rcases x with _ | ⟨c1, err | v⟩
  · exact absurd h (by simp [andThen])
  · left
    simp only [andThen, Option.some.injEq, Prod.mk.injEq] at h
    exact ⟨err, by simp [h.1, h.2], h.2.symm⟩
  · right
    exact ⟨c1, v, rfl, h⟩

/-- `applyUn` never changes the context. -/
theorem applyUn_context {op : UnOp} {c1 c : Context} {v : Number}
    {r : Except EngineError Number} (h : applyUn op c1 v = some (c, r)) :
    c = c1 := by
  cases op <;> simp only [applyUn, Option.some.injEq, Prod.mk.injEq] at h <;>
    exact h.1.symm

theorem setVarL_length : ∀ (l : List ScopeMap) (k : String) (v : Number)
    (l' : List ScopeMap), setVarL l k v = some l' → l'.length = l.length := by
  intro l k v
  induction l with
  | nil => intro l' h; exact absurd h (by simp [setVarL])
  | cons s rest ih =>
      intro l' h
      simp only [setVarL] at h
      by_cases hc : mapContains s k
      · rw [if_pos hc] at h
        simp only [Option.some.injEq] at h
        subst h
        simp
      · rw [if_neg hc] at h
        rcases Option.map_eq_some'.mp h with ⟨l2, h2, rfl⟩
        simp [ih l2 h2]

/-- `set_var` never changes the number of scopes. -/
theorem set_var_scopes_length (c : Context) (k : String) (v : Number) :
    (c.set_var k v).scopes.length = c.scopes.length := by
  unfold Context.set_var
  cases h : setVarL c.scopes.reverse k v with
  | some l' =>
      have := setVarL_length c.scopes.reverse k v l' h
      simp at this ⊢
      omega
  | none =>
      cases h2 : c.scopes.reverse with
      | nil => rfl
      | cons s rest =>
          have : c.scopes.length = (s :: rest).length := by
            rw [← h2]; simp
          simp at this ⊢
          omega

/-- `define_var` never changes the number of scopes. -/
theorem define_var_scopes_length (c : Context) (k : String) (v : Number) :
    (c.define_var k v).scopes.length = c.scopes.length := by
  unfold Context.define_var
  cases h2 : c.scopes.reverse with
  | nil => rfl
  | cons s rest =>
      have : c.scopes.length = (s :: rest).length := by
        rw [← h2]; simp
      simp at this ⊢
      omega

/-- `bindParams` never changes the number of scopes. -/
theorem bindParams_scopes_length : ∀ (ps : List String) (vs : List Number)
    (c : Context), (bindParams c ps vs).scopes.length = c.scopes.length := by
  intro ps
  induction ps with
  | nil => intro vs c; cases vs <;> rfl
  | cons p rest ih =>
      intro vs c
      cases vs with
      | nil => rfl
      | cons a as2 =>
          rw [bindParams, ih]
          exact define_var_scopes_length c p a

theorem push_scope_length (c : Context) :
    c.push_scope.scopes.length = c.scopes.length + 1 := by
  simp [Context.push_scope]

theorem pop_scope_length (c : Context) :
    c.pop_scope.scopes.length =
      if 1 < c.scopes.length then c.scopes.length - 1 else c.scopes.length := by
  unfold Context.pop_scope
  split <;> simp_all

/-- Scope-stack balance for the reference evaluator: any evaluation that
returns (a value or an error) leaves the scope stack at its original
depth, as long as the global scope is present. -/
theorem evalRec_scopes : ∀ (fuel : Nat) (e : Expr) (ctx c : Context)
    (r : Except EngineError Number),
    1 ≤ ctx.scopes.length → evalRec fuel e ctx = some (c, r) →
    c.scopes.length = ctx.scopes.length := by
  intro fuel
  induction fuel using Nat.strong_induction_on with
  | _ fuel ihf =>
    suffices h : ∀ n e, Ew e ≤ n → ∀ ctx c r, 1 ≤ ctx.scopes.length →
        evalRec fuel e ctx = some (c, r) →
        c.scopes.length = ctx.scopes.length by
      intro e ctx c r h1 h2
      exact h (Ew e) e le_rfl ctx c r h1 h2
    have argsScopes : ∀ (es : List Expr),
        (∀ a ∈ es, ∀ ctx c r, 1 ≤ ctx.scopes.length →
          evalRec fuel a ctx = some (c, r) →
          c.scopes.length = ctx.scopes.length) →
        ∀ ctx c rs, 1 ≤ ctx.scopes.length →
          evalRecArgs fuel es ctx = some (c, rs) →
          c.scopes.length = ctx.scopes.length := by
      intro es
      induction es with
      | nil =>
          intro _ ctx c rs _ heval
          rw [evalRecArgs_nil] at heval
          simp only [Option.some.injEq, Prod.mk.injEq] at heval
          rw [← heval.1]
      | cons a rest ih =>
          intro h ctx c rs hlen heval
          rw [evalRecArgs_cons] at heval
          rcases andThen_some heval with ⟨err, hx, _⟩ | ⟨c1, v, hx, hf⟩
          · exact h a (by simp) ctx c _ hlen hx
          · have h1 : c1.scopes.length = ctx.scopes.length :=
              h a (by simp) ctx c1 _ hlen hx
            rcases andThen_some hf with ⟨err, hx2, _⟩ | ⟨c2, vs, hx2, hf2⟩
            · have := ih (fun b hb => h b (List.mem_cons_of_mem a hb)) c1 c _
                (by omega) hx2
              omega
            · simp only [Option.some.injEq, Prod.mk.injEq] at hf2
              have := ih (fun b hb => h b (List.mem_cons_of_mem a hb)) c1 c2 _
                (by omega) hx2
              rw [← hf2.1]
              omega
    intro n
    induction n with
    | zero =>
        intro e he
        have := Ew_pos e
        omega
    | succ n ihn =>
        intro e he ctx c r hlen heval
        cases e with
        | Literal v =>
            rw [evalRec_Literal] at heval
            simp only [Option.some.injEq, Prod.mk.injEq] at heval
            rw [← heval.1]
        | Variable name =>
            rw [evalRec_Variable] at heval
            split at heval <;>
              (simp only [Option.some.injEq, Prod.mk.injEq] at heval
               rw [← heval.1])
        | FunctionDef name params body =>
            rw [evalRec_FunctionDef] at heval
            simp only [Option.some.injEq, Prod.mk.injEq] at heval
            rw [← heval.1]
        | Assignment name sub =>
            have hs : Ew sub ≤ n := by simp only [Ew] at he; omega
            rw [evalRec_Assignment] at heval
            rcases andThen_some heval with ⟨err, hx, _⟩ | ⟨c1, v, hx, hf⟩
            · exact ihn sub hs ctx c _ hlen hx
            · simp only [Option.some.injEq, Prod.mk.injEq] at hf
              have h1 := ihn sub hs ctx c1 _ hlen hx
              rw [← hf.1, set_var_scopes_length]
              omega
        | UnaryOp op sub =>
            have hs : Ew sub ≤ n := by simp only [Ew] at he; omega
            rw [evalRec_UnaryOp] at heval
            rcases andThen_some heval with ⟨err, hx, _⟩ | ⟨c1, v, hx, hf⟩
            · exact ihn sub hs ctx c _ hlen hx
            · rw [applyUn_context hf]
              exact ihn sub hs ctx c1 _ hlen hx
        | BinaryOp op l r2 =>
            have hl : Ew l ≤ n := by simp only [Ew] at he; omega
            have hr : Ew r2 ≤ n := by simp only [Ew] at he; omega
            rw [evalRec_BinaryOp] at heval
            rcases andThen_some heval with ⟨err, hx, _⟩ | ⟨c1, lv, hx, hf⟩
            · exact ihn l hl ctx c _ hlen hx
            · have h1 := ihn l hl ctx c1 _ hlen hx
              rcases andThen_some hf with ⟨err, hx2, _⟩ | ⟨c2, rv, hx2, hf2⟩
              · have := ihn r2 hr c1 c _ (by omega) hx2
                omega
              · have h2 := ihn r2 hr c1 c2 _ (by omega) hx2
                split at hf2
                · exact Option.noConfusion hf2
                · simp only [Option.some.injEq, Prod.mk.injEq] at hf2
                  rw [← hf2.1]
                  omega
        | FunctionCall name argEs =>
            have hargs : ∀ a ∈ argEs, Ew a ≤ n := by
              intro a ha
              have h1 := Ews_mem_le argEs a ha
              simp only [Ew] at he
              omega
            rw [evalRec_FunctionCall] at heval
            rcases andThen_some heval with ⟨err, hx, _⟩ | ⟨c1, args, hx, hf⟩
            · exact argsScopes argEs (fun a ha => ihn a (hargs a ha)) ctx c _
                hlen hx
            · have h1 : c1.scopes.length = ctx.scopes.length :=
                argsScopes argEs (fun a ha => ihn a (hargs a ha)) ctx c1 _
                  hlen hx
              split at hf
              next uf hfind =>
                split at hf
                · simp only [Option.some.injEq, Prod.mk.injEq] at hf
                  rw [← hf.1]
                  omega
                · cases fuel with
                  | zero => exact Option.noConfusion hf
                  | succ f =>
                      change (match evalRec f uf.body
                          (bindParams c1.push_scope uf.params args) with
                        | none => none
                        | some (c2, res) => some (c2.pop_scope, res)) =
                          some (c, r) at hf
                      split at hf
                      · exact Option.noConfusion hf
                      next c2 res hbody =>
                        simp only [Option.some.injEq, Prod.mk.injEq] at hf
                        have h2 : c2.scopes.length =
                            (bindParams c1.push_scope uf.params args).scopes.length :=
                          ihf f (Nat.lt_succ_self f) uf.body _ c2 res
                            (by rw [bindParams_scopes_length, push_scope_length]; omega)
                            hbody
                        rw [bindParams_scopes_length, push_scope_length] at h2
                        rw [← hf.1, pop_scope_length]
                        rw [h2]
                        simp only [Nat.lt_add_one_iff]
                        rw [if_pos (by omega)]
                        omega
              next hfind =>
                simp only [Option.some.injEq, Prod.mk.injEq] at hf
                rw [← hf.1]
                omega


theorem mapGet_mapInsert_self : ∀ (m : ScopeMap) (k : String) (v : Number),
    mapGet (mapInsert m k v) k = some v := by
  intro m k v
  induction m with
  | nil => simp [mapInsert, mapGet]
  | cons p rest ih =>
      obtain ⟨k2, v2⟩ := p
      by_cases h : k2 = k
      · simp [mapInsert, h, mapGet]
      · simp [mapInsert, h, mapGet, ih]

theorem mapContains_false_get {m : ScopeMap} {k : String}
    (h : mapContains m k = false) : mapGet m k = none := by
  unfold mapContains at h
  cases h2 : mapGet m k
  · rfl
  · rw [h2] at h; simp at h

/-- First-match lookup: if no scope searched before `s` (innermost
outward) contains the name, and `s` does, the search returns the binding
in `s`. -/
theorem getVarL_first : ∀ (inner : List ScopeMap) (s : ScopeMap)
    (outer : List ScopeMap) (k : String),
    (∀ s2 ∈ inner, mapContains s2 k = false) →
    mapContains s k = true →
    getVarL (inner ++ s :: outer) k = mapGet s k := by
  intro inner
  induction inner with
  | nil =>
      intro s outer k _ hs
      unfold mapContains at hs
      rcases h2 : mapGet s k with _ | v
      · rw [h2] at hs; simp at hs
      · simp [getVarL, h2]
  | cons s0 rest ih =>
      intro s outer k hinner hs
      have h0 : mapGet s0 k = none :=
        mapContains_false_get (hinner s0 (by simp))
      simp only [List.cons_append, getVarL, h0]
      exact ih s outer k (fun s2 h2 => hinner s2 (by simp [h2])) hs

/-- First-match update: `setVarL` rewrites the binding in the first scope
(innermost outward) that contains the name, leaving all other scopes
untouched. -/
theorem setVarL_first : ∀ (inner : List ScopeMap) (s : ScopeMap)
    (outer : List ScopeMap) (k : String) (v : Number),
    (∀ s2 ∈ inner, mapContains s2 k = false) →
    mapContains s k = true →
    setVarL (inner ++ s :: outer) k v =
      some (inner ++ mapInsert s k v :: outer) := by
  intro inner
  induction inner with
  | nil =>
      intro s outer k v _ hs
      simp [setVarL, hs]
  | cons s0 rest ih =>
      intro s outer k v hinner hs
      have h0 : mapContains s0 k = false := hinner s0 (by simp)
      simp only [List.cons_append, setVarL, h0, Bool.false_eq_true, if_false,
        List.append_eq]
      rw [ih s outer k v (fun s2 h2 => hinner s2 (by simp [h2])) hs]
      rfl

/-- When no scope contains the name, the search pass fails. -/
theorem setVarL_none : ∀ (l : List ScopeMap) (k : String) (v : Number),
    (∀ s2 ∈ l, mapContains s2 k = false) →
    setVarL l k v = none := by
  intro l k v
  induction l with
  | nil => intro _; rfl
  | cons s rest ih =>
      intro h
      have h0 : mapContains s k = false := h s (by simp)
      simp only [setVarL, h0, Bool.false_eq_true, if_false]
      rw [ih (fun s2 h2 => h s2 (by simp [h2]))]
      rfl

/-- After `setVarL` succeeds, looking the name up finds the new value. -/
theorem getVarL_setVarL : ∀ (l : List ScopeMap) (k : String) (v : Number)
    (l2 : List ScopeMap), setVarL l k v = some l2 →
    getVarL l2 k = some v := by
  intro l k v
  induction l with
  | nil => intro l2 h; exact absurd h (by simp [setVarL])
  | cons s rest ih =>
      intro l2 h
      simp only [setVarL] at h
      by_cases hc : mapContains s k
      · rw [if_pos hc] at h
        simp only [Option.some.injEq] at h
        subst h
        simp [getVarL, mapGet_mapInsert_self]
      · rw [if_neg hc] at h
        rcases Option.map_eq_some'.mp h with ⟨l3, h3, rfl⟩
        have h0 : mapGet s k = none :=
          mapContains_false_get (by simpa using hc)
        simp [getVarL, h0, ih l3 h3]

/-- Assigning a name makes it immediately readable with the stored value
(when the global scope exists). -/
theorem get_var_set_var (c : Context) (k : String) (v : Number)
    (h : 1 ≤ c.scopes.length) : (c.set_var k v).get_var k = some v := by
  unfold Context.set_var
  cases hs : setVarL c.scopes.reverse k v with
  | some l2 =>
      unfold Context.get_var
      simp only [List.reverse_reverse]
      exact getVarL_setVarL c.scopes.reverse k v l2 hs
  | none =>
      cases h2 : c.scopes.reverse with
      | nil =>
          have : c.scopes.length = 0 := by
            have := congrArg List.length h2
            simpa using this
          omega
      | cons s rest =>
          unfold Context.get_var
          simp only [List.reverse_reverse, getVarL, mapGet_mapInsert_self]


/-- Sequential evaluation of a list of expressions against one context,
returning the last result — the session pattern used by the repository's
tests (`evaluate` called repeatedly on the same `Context`). -/
def runSeq (fuel : Nat) : List Expr → Context → EvalResult
  | [], ctx => some (ctx, .ok (.Integer 0))
  | e :: rest, ctx =>
      andThen (Expr.eval fuel e ctx) (fun c v =>
        match rest with
        | [] => some (c, .ok v)
        | _ :: _ => runSeq fuel rest c)

/-- The scoping test program: `x = 10`, `f() = x = 20`, `f()`, `x`. -/
def progF : List Expr :=
  [.Assignment "x" (.Literal (.Integer 10)),
   .FunctionDef "f" [] (.Assignment "x" (.Literal (.Integer 20))),
   .FunctionCall "f" [],
   .Variable "x"]

/-- The shadowing test program: `x = 10`, `g(x) = x = 20`, `g(5)`, `x`. -/
def progG : List Expr :=
  [.Assignment "x" (.Literal (.Integer 10)),
   .FunctionDef "g" ["x"] (.Assignment "x" (.Literal (.Integer 20))),
   .FunctionCall "g" [.Literal (.Integer 5)],
   .Variable "x"]

theorem runSeq_progF :
    runSeq 1 progF Context.new =
      some (⟨[[("x", .Integer 20)]],
             [("f", ⟨[], .Assignment "x" (.Literal (.Integer 20))⟩)]⟩,
            .ok (.Integer 20)) := by
  have h1 : Expr.eval 1 (.Assignment "x" (.Literal (.Integer 10)))
      Context.new = some (⟨[[("x", .Integer 10)]], []⟩, .ok (.Integer 10)) := by
    rw [eval_Assignment, eval_Literal]
    rfl
  have h2 : Expr.eval 1
      (.FunctionDef "f" [] (.Assignment "x" (.Literal (.Integer 20))))
      ⟨[[("x", .Integer 10)]], []⟩ =
      some (⟨[[("x", .Integer 10)]],
             [("f", ⟨[], .Assignment "x" (.Literal (.Integer 20))⟩)]⟩,
            .ok (.Integer 0)) := by
    rw [eval_FunctionDef]
    rfl
  have hbody : Expr.eval 0 (.Assignment "x" (.Literal (.Integer 20)))
      ⟨[[("x", .Integer 10)], []],
       [("f", ⟨[], .Assignment "x" (.Literal (.Integer 20))⟩)]⟩ =
      some (⟨[[("x", .Integer 20)], []],
             [("f", ⟨[], .Assignment "x" (.Literal (.Integer 20))⟩)]⟩,
            .ok (.Integer 20)) := by
    rw [eval_Assignment, eval_Literal]
    rfl
  have h3 : Expr.eval 1 (.FunctionCall "f" [])
      ⟨[[("x", .Integer 10)]],
       [("f", ⟨[], .Assignment "x" (.Literal (.Integer 20))⟩)]⟩ =
      some (⟨[[("x", .Integer 20)]],
             [("f", ⟨[], .Assignment "x" (.Literal (.Integer 20))⟩)]⟩,
            .ok (.Integer 20)) := by
    rw [eval_FunctionCall, evalArgs_nil]
    show (match Expr.eval 0 (.Assignment "x" (.Literal (.Integer 20)))
            ⟨[[("x", .Integer 10)], []],
             [("f", ⟨[], .Assignment "x" (.Literal (.Integer 20))⟩)]⟩ with
          | none => none
          | some (c2, res) => some (c2.pop_scope, res)) =
        some (⟨[[("x", .Integer 20)]],
               [("f", ⟨[], .Assignment "x" (.Literal (.Integer 20))⟩)]⟩,
              .ok (.Integer 20))
    rw [hbody]
    rfl
  have h4 : Expr.eval 1 (.Variable "x")
      ⟨[[("x", .Integer 20)]],
       [("f", ⟨[], .Assignment "x" (.Literal (.Integer 20))⟩)]⟩ =
      some (⟨[[("x", .Integer 20)]],
             [("f", ⟨[], .Assignment "x" (.Literal (.Integer 20))⟩)]⟩,
            .ok (.Integer 20)) := by
    rw [eval_Variable]
    rfl
  simp only [progF, runSeq, h1, h2, h3, h4, andThen]

theorem runSeq_progG :
    runSeq 1 progG Context.new =
      some (⟨[[("x", .Integer 10)]],
             [("g", ⟨["x"], .Assignment "x" (.Literal (.Integer 20))⟩)]⟩,
            .ok (.Integer 10)) := by
  have h1 : Expr.eval 1 (.Assignment "x" (.Literal (.Integer 10)))
      Context.new = some (⟨[[("x", .Integer 10)]], []⟩, .ok (.Integer 10)) := by
    rw [eval_Assignment, eval_Literal]
    rfl
  have h2 : Expr.eval 1
      (.FunctionDef "g" ["x"] (.Assignment "x" (.Literal (.Integer 20))))
      ⟨[[("x", .Integer 10)]], []⟩ =
      some (⟨[[("x", .Integer 10)]],
             [("g", ⟨["x"], .Assignment "x" (.Literal (.Integer 20))⟩)]⟩,
            .ok (.Integer 0)) := by
    rw [eval_FunctionDef]
    rfl
  have hbody : Expr.eval 0 (.Assignment "x" (.Literal (.Integer 20)))
      ⟨[[("x", .Integer 10)], [("x", .Integer 5)]],
       [("g", ⟨["x"], .Assignment "x" (.Literal (.Integer 20))⟩)]⟩ =
      some (⟨[[("x", .Integer 10)], [("x", .Integer 20)]],
             [("g", ⟨["x"], .Assignment "x" (.Literal (.Integer 20))⟩)]⟩,
            .ok (.Integer 20)) := by
    rw [eval_Assignment, eval_Literal]
    rfl
  have h3 : Expr.eval 1 (.FunctionCall "g" [.Literal (.Integer 5)])
      ⟨[[("x", .Integer 10)]],
       [("g", ⟨["x"], .Assignment "x" (.Literal (.Integer 20))⟩)]⟩ =
      some (⟨[[("x", .Integer 10)]],
             [("g", ⟨["x"], .Assignment "x" (.Literal (.Integer 20))⟩)]⟩,
            .ok (.Integer 20)) := by
    rw [eval_FunctionCall, evalArgs_cons, eval_Literal]
    simp only [evalArgs_nil, andThen]
    show (match Expr.eval 0 (.Assignment "x" (.Literal (.Integer 20)))
            ⟨[[("x", .Integer 10)], [("x", .Integer 5)]],
             [("g", ⟨["x"], .Assignment "x" (.Literal (.Integer 20))⟩)]⟩ with
          | none => none
          | some (c2, res) => some (c2.pop_scope, res)) =
        some (⟨[[("x", .Integer 10)]],
               [("g", ⟨["x"], .Assignment "x" (.Literal (.Integer 20))⟩)]⟩,
              .ok (.Integer 20))
    rw [hbody]
    rfl
  have h4 : Expr.eval 1 (.Variable "x")
      ⟨[[("x", .Integer 10)]],
       [("g", ⟨["x"], .Assignment "x" (.Literal (.Integer 20))⟩)]⟩ =
      some (⟨[[("x", .Integer 10)]],
             [("g", ⟨["x"], .Assignment "x" (.Literal (.Integer 20))⟩)]⟩,
            .ok (.Integer 10)) := by
    rw [eval_Variable]
    rfl
  simp only [progG, runSeq, h1, h2, h3, h4, andThen]


/-- Promotion always yields a same-variant pair (the fact that makes the
`unreachable!` arms of the arithmetic macros dead). -/
theorem promote_shape : ∀ a b : Number,
    (∃ l r, promote a b = (.Integer l, .Integer r)) ∨
    (∃ l r, promote a b = (.Rational l, .Rational r)) ∨
    (∃ l r, promote a b = (.Float l, .Float r)) ∨
    (∃ l1 l2 r1 r2, promote a b = (.Complex l1 l2, .Complex r1 r2)) := by
  intro a b
  rcases a with i | q | f | ⟨re, im⟩ <;> rcases b with i2 | q2 | f2 | ⟨re2, im2⟩ <;>
    first
      | exact Or.inl ⟨_, _, rfl⟩
      | exact Or.inr (Or.inl ⟨_, _, rfl⟩)
      | exact Or.inr (Or.inr (Or.inl ⟨_, _, rfl⟩))
      | exact Or.inr (Or.inr (Or.inr ⟨_, _, _, _, rfl⟩))

theorem liftBin_isSome (fi : Int → Int → Int) (fq : Rat → Rat → Rat)
    (ff : F64 → F64 → F64) (fc : F64 × F64 → F64 × F64 → F64 × F64)
    (a b : Number) : (liftBin fi fq ff fc a b).isSome := by
  rcases promote_shape a b with ⟨l, r, h⟩ | ⟨l, r, h⟩ | ⟨l, r, h⟩ |
    ⟨l1, l2, r1, r2, h⟩ <;> simp [liftBin, h]

theorem numDiv_isSome (a b : Number) : (numDiv a b).isSome := by
  rcases a with i | q | f | ⟨re, im⟩ <;> rcases b with i2 | q2 | f2 | ⟨re2, im2⟩ <;>
    simp only [numDiv, promote] <;> (repeat' split) <;> simp

/-- `numRem` is `none` (a panic of the underlying big-integer or rational
remainder) exactly when the promoted pair is Integer with zero divisor or
Rational with zero divisor. -/
theorem numRem_none_iff (a b : Number) :
    numRem a b = none ↔
      ((∃ l, promote a b = (.Integer l, .Integer 0)) ∨
       (∃ q, promote a b = (.Rational q, .Rational 0))) := by
  rcases promote_shape a b with ⟨l, r, h⟩ | ⟨l, r, h⟩ | ⟨l, r, h⟩ |
    ⟨l1, l2, r1, r2, h⟩ <;> simp only [numRem, h]
  · by_cases hr : r = 0 <;> simp [hr, h]
  · by_cases hr : r = 0 <;> simp [hr, h]
  · simp [h]
  · simp [h]

theorem facGo_pos : ∀ (n : Nat) (acc k : Int), 0 < acc → 0 < k →
    0 < facGo acc k n := by
  intro n
  induction n with
  | zero => intro acc k ha _; exact ha
  | succ n ih =>
      intro acc k ha hk
      rw [facGo]
      exact ih (acc * k) (k + 1) (mul_pos ha hk) (by omega)


/-- Claim C1: the evaluator's iterative left-spine strategy (collect
`(operator, right operand)` pairs onto a work list, evaluate the leftmost
non-binary leaf, unwind most-recent-first) produces exactly the same
result — value or error, and the same final context, hence the same
left-to-right evaluation order and left-associativity — as ordinary
recursive evaluation, on every expression; and a 2000-term
left-associative chain `1 + 1 + … + 1` evaluates to Integer 2000. -/
theorem claim_C1 :
    (∀ (fuel : Nat) (e : Expr) (ctx : Context),
        Expr.eval fuel e ctx = evalRec fuel e ctx) ∧
    (∀ ctx : Context,
        Expr.eval 0 (chainOnes 1999) ctx =
          some (ctx, .ok (.Integer 2000))) := by
  refine ⟨eval_eq_evalRec, fun ctx => ?_⟩
  rw [chainOnes_eval 0 1999 ctx]
  norm_num

/-- Claim C2: Integer ÷ Integer with nonzero divisor always returns the
exact `Rational` quotient (never an Integer, never a Float), and
`1 / 3` followed by `· * 3` gives exactly Rational `1/1`. -/
theorem claim_C2 :
    (∀ l r : Int, r ≠ 0 →
        numDiv (.Integer l) (.Integer r) =
          some (.Rational (Rat.divInt l r))) ∧
    numDiv (.Integer 1) (.Integer 3) = some (.Rational (1 / 3 : Rat)) ∧
    numMul (.Rational (1 / 3 : Rat)) (.Integer 3) =
      some (.Rational 1) := by
  refine ⟨fun l r hr => ?_, ?_, ?_⟩
  · simp [numDiv, hr]
  · simp only [numDiv, Rat.divInt_eq_div]
    norm_num
  · simp only [numMul, liftBin, promote]
    norm_num

theorem claim_C2_witness :
    numDiv (.Integer 1) (.Integer 3) = some (.Rational (Rat.divInt 1 3)) :=
  claim_C2.1 1 3 (by decide)

/-- Claim C3: dividing an Integer or Rational dividend by an Integer or
Rational zero never raises an error and never panics: every such division
returns a `Float` carrying the IEEE value of `(dividend as f64) / 0.0`,
which is `+inf`, `-inf` or NaN by the sign of the dividend. -/
theorem claim_C3 :
    (∀ l : Int, numDiv (.Integer l) (.Integer 0) =
        some (.Float (fdiv (.finite (l : Rat)) (.finite 0)))) ∧
    (∀ l : Int, numDiv (.Integer l) (.Rational 0) =
        some (.Float (fdiv (.finite (l : Rat)) (.finite 0)))) ∧
    (∀ q : Rat, numDiv (.Rational q) (.Integer 0) =
        some (.Float (fdiv (.finite q) (.finite 0)))) ∧
    (∀ q : Rat, numDiv (.Rational q) (.Rational 0) =
        some (.Float (fdiv (.finite q) (.finite 0)))) ∧
    (∀ x : Rat, fdiv (.finite x) (.finite 0) =
        if 0 < x then .inf else if x < 0 then .negInf else .nan) := by
  refine ⟨fun l => ?_, fun l => ?_, fun q => ?_, fun q => ?_, fun x => ?_⟩
  · simp [numDiv]
  · simp [numDiv, promote]
  · simp [numDiv, promote]
  · simp [numDiv, promote]
  · simp [fdiv]

/-- Counterexample to claim C6 as stated: `%` with an Integer zero right
operand panics (the `BigInt % 0` division-by-zero panic), modelled as
`none`, rather than returning a Number. -/
theorem claim_C6_counterexample :
    numRem (.Integer 1) (.Integer 0) = none := by decide

/-- Claim C6 (amended): `+ - *` and `/` are total over the Number domain
(the `unreachable!` arms after promotion are dead, and division guards its
zero cases), and negate and `pow` are total by construction; but `%`
panics exactly when the promoted pair is Integer with zero right operand
or Rational with zero right operand, and returns a Number in every other
case (including the Complex % Complex NaN sentinel). -/
theorem claim_C6 :
    (∀ a b : Number, (numAdd a b).isSome) ∧
    (∀ a b : Number, (numSub a b).isSome) ∧
    (∀ a b : Number, (numMul a b).isSome) ∧
    (∀ a b : Number, (numDiv a b).isSome) ∧
    (∀ a b : Number, numRem a b = none ↔
      ((∃ l, promote a b = (.Integer l, .Integer 0)) ∨
       (∃ q, promote a b = (.Rational q, .Rational 0)))) :=
  ⟨fun a b => liftBin_isSome _ _ _ _ a b,
   fun a b => liftBin_isSome _ _ _ _ a b,
   fun a b => liftBin_isSome _ _ _ _ a b,
   numDiv_isSome,
   numRem_none_iff⟩

/-- Claim C7: factorial is defined on every non-negative Integer by
iterative accumulation and yields a positive Integer with no magnitude
cap (`50!` exceeds `10^60`); every negative Integer and every non-Integer
input is rejected with a `DomainError`. -/
theorem claim_C7 :
    (∀ i : Int, 0 ≤ i →
        factorial (.Integer i) = .ok (.Integer (facGo 1 1 i.toNat)) ∧
        0 < facGo 1 1 i.toNat) ∧
    (∀ i : Int, i < 0 →
        factorial (.Integer i) =
          .error (.DomainError "Factorial of negative integer")) ∧
    (∀ q : Rat, factorial (.Rational q) =
        .error (.DomainError
          "Factorial only implemented for Integers currently")) ∧
    (∀ f : F64, factorial (.Float f) =
        .error (.DomainError
          "Factorial only implemented for Integers currently")) ∧
    (∀ re im : F64, factorial (.Complex re im) =
        .error (.DomainError
          "Factorial only implemented for Integers currently")) ∧
    (10 : Int) ^ 60 < facGo 1 1 50 := by
  refine ⟨fun i hi => ⟨?_, facGo_pos _ 1 1 one_pos one_pos⟩,
    fun i hi => ?_, fun q => rfl, fun f => rfl, fun re im => rfl, by decide⟩
  · simp [factorial, not_lt.mpr hi]
  · simp [factorial, hi]

theorem claim_C7_witness :
    (factorial (.Integer 4) = .ok (.Integer (facGo 1 1 (4 : Int).toNat)) ∧
      0 < facGo 1 1 (4 : Int).toNat) ∧
    factorial (.Integer (-1)) =
      .error (.DomainError "Factorial of negative integer") :=
  ⟨claim_C7.1 4 (by decide), claim_C7.2.1 (-1) (by decide)⟩

/-- Counterexample to claim C8 as stated: the derived `==` is structural
and does not promote — `Integer 1 == Float 1.0` is `false` even though
promoting comparison (`partial_cmp`) finds them equal; and a Float
compared against a Complex with zero imaginary part is *not*
incomparable: `promote`'s Float arm precedes its Complex arm, so the
Complex is demoted to Float and `1.0` compares equal to `1+0i`. -/
theorem claim_C8_counterexample :
    numberEqb (.Integer 1) (.Float (.finite 1)) = false ∧
    numCmp (.Integer 1) (.Float (.finite 1)) = some .eq ∧
    numCmp (.Float (.finite 1)) (.Complex (.finite 1) (.finite 0)) =
      some .eq := by decide

/-- Claim C8 (amended): `partial_cmp` promotes both operands to a common
variant; a Complex paired with an Integer, a Rational or another Complex
is incomparable, but a Float paired with a Complex demotes the Complex to
Float (its real part when the imaginary part is IEEE zero, NaN otherwise
— NaN being incomparable), so `Float 1.0` vs `Complex 1+0i` compares
equal; `Integer 1` and `Float 1.0` compare equal under `partial_cmp`,
while the derived `==` is structural, does not promote, and reports them
unequal. -/
theorem claim_C8 :
    (∀ (i : Int) (re im : F64),
        numCmp (.Integer i) (.Complex re im) = none ∧
        numCmp (.Complex re im) (.Integer i) = none) ∧
    (∀ (q : Rat) (re im : F64),
        numCmp (.Rational q) (.Complex re im) = none ∧
        numCmp (.Complex re im) (.Rational q) = none) ∧
    (∀ re im re2 im2 : F64,
        numCmp (.Complex re im) (.Complex re2 im2) = none) ∧
    (∀ (f re im : F64), feqb im (.finite 0) = false →
        numCmp (.Float f) (.Complex re im) = none) ∧
    numCmp (.Float (.finite 1)) (.Complex (.finite 1) (.finite 0)) =
      some .eq ∧
    numCmp (.Integer 1) (.Float (.finite 1)) = some .eq ∧
    numberEqb (.Integer 1) (.Float (.finite 1)) = false := by
  refine ⟨fun i re im => ⟨rfl, rfl⟩, fun q re im => ⟨rfl, rfl⟩,
    fun re im re2 im2 => rfl, fun f re im h => ?_, by decide, by decide,
    by decide⟩
  simp only [numCmp, promote, Number.toF64orNaN, Number.to_f64, h,
    Bool.false_eq_true, if_false, Option.getD_none]
  cases f <;> rfl

theorem claim_C8_witness :
    numCmp (.Float (.finite 2)) (.Complex (.finite 3) (.finite 1)) =
      none :=
  claim_C8.2.2.2.1 (.finite 2) (.finite 3) (.finite 1) (by decide)


/-- Claim C4: variable lookup searches the scope stack innermost to
outermost and returns the first match; assignment overwrites the first
existing binding in that same order, and defines a new binding in the
innermost scope only when the name is bound in no scope.  Consequently
with global `x = 10`, calling `f() = x = 20` leaves global `x` at `20`,
while calling `g(x) = x = 20` with argument `5` leaves global `x` at
`10`.  (`c.scopes` keeps the global scope first, so the reversed list is
the innermost-to-outermost search order.) -/
theorem claim_C4 :
    (∀ (c : Context) (k : String) (inner outer : List ScopeMap)
        (s : ScopeMap),
        c.scopes.reverse = inner ++ s :: outer →
        (∀ s2 ∈ inner, mapContains s2 k = false) →
        mapContains s k = true →
        c.get_var k = mapGet s k) ∧
    (∀ (c : Context) (k : String) (v : Number)
        (inner outer : List ScopeMap) (s : ScopeMap),
        c.scopes.reverse = inner ++ s :: outer →
        (∀ s2 ∈ inner, mapContains s2 k = false) →
        mapContains s k = true →
        c.set_var k v =
          { c with scopes := (inner ++ mapInsert s k v :: outer).reverse }) ∧
    (∀ (c : Context) (k : String) (v : Number) (outer : List ScopeMap)
        (s : ScopeMap),
        c.scopes.reverse = s :: outer →
        (∀ s2 ∈ c.scopes, mapContains s2 k = false) →
        c.set_var k v =
          { c with scopes := (mapInsert s k v :: outer).reverse }) ∧
    runSeq 1 progF Context.new =
      some (⟨[[("x", .Integer 20)]],
             [("f", ⟨[], .Assignment "x" (.Literal (.Integer 20))⟩)]⟩,
            .ok (.Integer 20)) ∧
    runSeq 1 progG Context.new =
      some (⟨[[("x", .Integer 10)]],
             [("g", ⟨["x"], .Assignment "x" (.Literal (.Integer 20))⟩)]⟩,
            .ok (.Integer 10)) := by
  refine ⟨?_, ?_, ?_, runSeq_progF, runSeq_progG⟩
  · intro c k inner outer s hrev hinner hs
    unfold Context.get_var
    rw [hrev]
    exact getVarL_first inner s outer k hinner hs
  · intro c k v inner outer s hrev hinner hs
    unfold Context.set_var
    rw [hrev, setVarL_first inner s outer k v hinner hs]
  · intro c k v outer s hrev hall
    unfold Context.set_var
    have hrevall : ∀ s2 ∈ c.scopes.reverse, mapContains s2 k = false :=
      fun s2 h2 => hall s2 (List.mem_reverse.mp h2)
    rw [setVarL_none c.scopes.reverse k v hrevall, hrev]

theorem claim_C4_witness :
    (⟨[[("a", .Integer 1)], []], []⟩ : Context).get_var "a" =
      mapGet [("a", .Integer 1)] "a" :=
  claim_C4.1 ⟨[[("a", .Integer 1)], []], []⟩ "a" [[]] []
    [("a", .Integer 1)] (by decide) (by decide) (by decide)

/-- Claim C5: every evaluation that returns (a value or an error) leaves
the scope stack at its original depth — the scope pushed on user-function
call entry is popped exactly once, success or failure — and the global
scope is never popped (popping a one-scope stack is the identity). -/
theorem claim_C5 :
    (∀ (fuel : Nat) (e : Expr) (ctx c : Context)
        (r : Except EngineError Number),
        1 ≤ ctx.scopes.length →
        Expr.eval fuel e ctx = some (c, r) →
        c.scopes.length = ctx.scopes.length ∧ 1 ≤ c.scopes.length) ∧
    (∀ c : Context, c.scopes.length = 1 → c.pop_scope = c) := by
  constructor
  · intro fuel e ctx c r hlen heval
    rw [eval_eq_evalRec] at heval
    have h := evalRec_scopes fuel e ctx c r hlen heval
    exact ⟨h, by omega⟩
  · intro c h
    unfold Context.pop_scope
    rw [if_neg (by omega)]

/-- A concrete successful user-function call used to witness claim C5. -/
theorem evalCallH :
    Expr.eval 1 (.FunctionCall "h" [])
      ⟨[[]], [("h", ⟨[], .Literal (.Integer 2)⟩)]⟩ =
      some (⟨[[]], [("h", ⟨[], .Literal (.Integer 2)⟩)]⟩,
            .ok (.Integer 2)) := by
  rw [eval_FunctionCall, evalArgs_nil]
  show (match Expr.eval 0 (.Literal (.Integer 2))
          ⟨[[], []], [("h", ⟨[], .Literal (.Integer 2)⟩)]⟩ with
        | none => none
        | some (c2, res) => some (c2.pop_scope, res)) =
      some (⟨[[]], [("h", ⟨[], .Literal (.Integer 2)⟩)]⟩,
            .ok (.Integer 2))
  rw [eval_Literal]
  rfl

theorem claim_C5_witness :
    (⟨[[]], [("h", ⟨[], .Literal (.Integer 2)⟩)]⟩ : Context).scopes.length =
      (⟨[[]], [("h", ⟨[], .Literal (.Integer 2)⟩)]⟩ : Context).scopes.length ∧
    1 ≤ (⟨[[]], [("h", ⟨[], .Literal (.Integer 2)⟩)]⟩ :
        Context).scopes.length :=
  claim_C5.1 1 (.FunctionCall "h" [])
    ⟨[[]], [("h", ⟨[], .Literal (.Integer 2)⟩)]⟩
    ⟨[[]], [("h", ⟨[], .Literal (.Integer 2)⟩)]⟩
    (.ok (.Integer 2)) (by decide) evalCallH

/-- Claim C9: an assignment whose right-hand side evaluates successfully
evaluates to that right-hand-side value itself (not a neutral zero), and
the same value is what the name now reads back as. -/
theorem claim_C9 :
    ∀ (fuel : Nat) (name : String) (sub : Expr) (ctx c : Context)
      (v : Number),
      Expr.eval fuel sub ctx = some (c, .ok v) →
      Expr.eval fuel (.Assignment name sub) ctx =
        some (c.set_var name v, .ok v) ∧
      (1 ≤ c.scopes.length →
        (c.set_var name v).get_var name = some v) := by
  intro fuel name sub ctx c v h
  constructor
  · rw [eval_Assignment, h]
    rfl
  · intro hlen
    exact get_var_set_var c name v hlen

theorem claim_C9_witness :
    Expr.eval 0 (.Assignment "y" (.Literal (.Integer 7))) Context.new =
      some (Context.new.set_var "y" (.Integer 7), .ok (.Integer 7)) ∧
    (1 ≤ Context.new.scopes.length →
      (Context.new.set_var "y" (.Integer 7)).get_var "y" =
        some (.Integer 7)) :=
  claim_C9 0 "y" (.Literal (.Integer 7)) Context.new Context.new
    (.Integer 7) (eval_Literal 0 (.Integer 7) Context.new)

/-- Claim C10: evaluating a function definition never evaluates its body:
for every body whatsoever it stores the parameter list and body in the
function table and returns Integer 0; an error in the body (here an
undefined variable) surfaces only later, at call time. -/
theorem claim_C10 :
    (∀ (fuel : Nat) (name : String) (params : List String) (body : Expr)
        (ctx : Context),
        Expr.eval fuel (.FunctionDef name params body) ctx =
          some ({ ctx with
                    functions := insertFun ctx.functions name
                      ⟨params, body⟩ },
                .ok (.Integer 0))) ∧
    Expr.eval 1 (.FunctionCall "h" [])
      ⟨[[]], [("h", ⟨[], .Variable "undef"⟩)]⟩ =
      some (⟨[[]], [("h", ⟨[], .Variable "undef"⟩)]⟩,
            .error (.UndefinedVariable "undef")) := by
  refine ⟨fun fuel name params body ctx => eval_FunctionDef _ _ _ _ _, ?_⟩
  rw [eval_FunctionCall, evalArgs_nil]
  show (match Expr.eval 0 (.Variable "undef")
          ⟨[[], []], [("h", ⟨[], .Variable "undef"⟩)]⟩ with
        | none => none
        | some (c2, res) => some (c2.pop_scope, res)) =
      some (⟨[[]], [("h", ⟨[], .Variable "undef"⟩)]⟩,
            .error (.UndefinedVariable "undef"))
  rw [eval_Variable]
  rfl

end NeoCalc
